import Mathlib

/-!
Verification development for the `joins` library: relational-style join
operations (inner, outer, left, right, and excluding variants) over two
in-memory arrays of records, keyed by a named field on each side, with
duplicate-key support and an optional custom merge callback.

The embedding models:
  * records as ordered association lists from field names to values,
  * the right-hand index as a mapping from stringified key values to the
    ordered group of records sharing that key (the source realizes it as
    a JavaScript array indexed by the key value, which coerces the key to
    a string),
  * `leftIterate` / `leftRightIterate` as the two iteration primitives,
  * the seven join wrappers as thin configurations of those primitives,
    where the absent-record marker `null` is `Option.none` and a falsy
    callback result (omission) is `Option.none` as well.
-/

/-- A primitive field value.  JavaScript records in this library carry
numbers, strings or booleans in the fields the joins touch. -/
inductive Value where
  | vNum : Int → Value
  | vStr : String → Value
  | vBool : Bool → Value
deriving DecidableEq, Repr

/-- The string a value coerces to when used as an array/property index,
as JavaScript does in `index[key]`. -/
def Value.toKeyString : Value → String
  | .vNum n => toString n
  | .vStr s => s
  | .vBool b => if b then "true" else "false"

/-- A record: an ordered association list of named fields. -/
abbrev Record := List (String × Value)

/-- Property read `r[f]`: the first binding of `f`, if any. -/
def Record.get (r : Record) (f : String) : Option Value :=
  r.lookup f

/-- The index key obtained from `row[keyField]`: the stringified field
value, or `"undefined"` when the field is absent (JavaScript stringifies
the `undefined` value when it is used as a property key). -/
def Record.keyStr (r : Record) (f : String) : String :=
  match r.get f with
  | some v => v.toKeyString
  | none => "undefined"

/-- Property assignment `r[f] = v`: overwrite in place when the field
exists, append otherwise (JavaScript insertion-order semantics). -/
def Record.set (r : Record) (f : String) (v : Value) : Record :=
  if (r.lookup f).isSome then
    r.map (fun p => if p.1 = f then (f, v) else p)
  else
    r ++ [(f, v)]

/-- The index built by `leftIterate`'s first loop: fold over the
right-hand records, appending each record to the group stored under its
stringified key (`index[key] = index[key] || []; index[key].push(row)`). -/
def buildIndex (right : List Record) (rightKey : String) : String → List Record :=
  right.foldl
    (fun index row => fun k =>
      if k = Record.keyStr row rightKey then index k ++ [row] else index k)
    (fun _ => [])

/-- The entry list walked for one left row:
`index[row[leftKey]] || [ null ]` — the indexed group when the lookup
finds one (groups are never empty, so an empty result means the lookup
found nothing), and the single absent marker `null` otherwise. -/
def entriesOf (ms : List Record) : List (Option Record) :=
  match ms with
  | [] => [none]
  | ms => ms.map some

/-- Iterate the left-hand array and join matching right-hand entries
(`leftIterate` in the source).  For each left row, the entries are the
indexed group for the row's key, or `[null]` when the lookup finds
nothing; each entry is passed to `select` and truthy results are pushed
onto the output. -/
def leftIterate {α : Type} (left right : List Record) (leftKey rightKey : String)
    (select : Option Record → Option Record → Option α) : List α :=
  let index := buildIndex right rightKey
  left.flatMap (fun row =>
    (entriesOf (index (Record.keyStr row leftKey))).filterMap
      (fun entry => select (some row) entry))

/-- Iterate the left-hand array (inclusive) and the right-hand array
(exclusive) and join records (`leftRightIterate` in the source): a
left-driven pass forwarding to `select` directly, followed by a
right-driven pass with sides swapped that forwards only when the lookup
into the left-side index found nothing (`if (right && !left)`). -/
def leftRightIterate {α : Type} (left right : List Record) (leftKey rightKey : String)
    (select : Option Record → Option Record → Option α) : List α :=
  leftIterate left right leftKey rightKey (fun l r => select l r) ++
  leftIterate right left rightKey leftKey (fun r l =>
    match r, l with
    | some _, none => select l r
    | _, _ => none)

/-- Default merge operation (`defaultMerge` in the source): copy every
own property of `left` into a fresh record, then every own property of
`right`, so right-hand values win on duplicate property names. -/
def defaultMerge (left right : Record) : Record :=
  let record := left.foldl (fun rec p => Record.set rec p.1 p.2) []
  right.foldl (fun rec p => Record.set rec p.1 p.2) record

/-- A merge callback: combines a (possibly empty-record) left/right pair
into a joined record.  The source documents it as returning the joined
record. -/
abbrev MergeFn := Record → Record → Record

/-- `innerJoin`: emit `(merge || defaultMerge)(left, right)` only when
both sides are present. -/
def innerJoin (left right : List Record) (leftKey rightKey : String)
    (merge : Option MergeFn) : List Record :=
  leftIterate left right leftKey rightKey (fun l r =>
    match l, r with
    | some lv, some rv => some ((merge.getD defaultMerge) lv rv)
    | _, _ => none)

/-- `outerJoin`: symmetric combination, emitting
`(merge || defaultMerge)(left || {}, right || {})` on every callback. -/
def outerJoin (left right : List Record) (leftKey rightKey : String)
    (merge : Option MergeFn) : List Record :=
  leftRightIterate left right leftKey rightKey (fun l r =>
    some ((merge.getD defaultMerge) (l.getD []) (r.getD [])))

/-- `leftJoin` / `leftOuterJoin`: emit for every left row, with an empty
record standing in for an absent right side (`merge(left, right || {})`;
the left argument of the callback is always a left row). -/
def leftJoin (left right : List Record) (leftKey rightKey : String)
    (merge : Option MergeFn) : List Record :=
  leftIterate left right leftKey rightKey (fun l r =>
    match l with
    | some lv => some ((merge.getD defaultMerge) lv (r.getD []))
    | none => none)

/-- `rightJoin` / `rightOuterJoin`: `leftIterate` with the roles of the
arrays swapped, emitting `merge(left || {}, right)`. -/
def rightJoin (left right : List Record) (leftKey rightKey : String)
    (merge : Option MergeFn) : List Record :=
  leftIterate right left rightKey leftKey (fun r l =>
    match r with
    | some rv => some ((merge.getD defaultMerge) (l.getD []) rv)
    | none => none)

/-- `leftExcludingJoin`: emit `merge(left, {})` only when the right side
is absent (`if (left && !right)`). -/
def leftExcludingJoin (left right : List Record) (leftKey rightKey : String)
    (merge : Option MergeFn) : List Record :=
  leftIterate left right leftKey rightKey (fun l r =>
    match l, r with
    | some lv, none => some ((merge.getD defaultMerge) lv [])
    | _, _ => none)

/-- `rightExcludingJoin`: `leftIterate` with roles swapped, emitting
`merge({}, right)` only when the left side is absent
(`if (right && !left)`). -/
def rightExcludingJoin (left right : List Record) (leftKey rightKey : String)
    (merge : Option MergeFn) : List Record :=
  leftIterate right left rightKey leftKey (fun r l =>
    match r, l with
    | some rv, none => some ((merge.getD defaultMerge) [] rv)
    | _, _ => none)

/-- `outerExcludingJoin`: symmetric combination, emitting
`merge(left || {}, right || {})` only when a side is absent
(`if (!left || !right)`). -/
def outerExcludingJoin (left right : List Record) (leftKey rightKey : String)
    (merge : Option MergeFn) : List Record :=
  leftRightIterate left right leftKey rightKey (fun l r =>
    match l, r with
    | some _, some _ => none
    | _, _ => some ((merge.getD defaultMerge) (l.getD []) (r.getD [])))

/-- The ordered group of records in `coll` whose stringified key equals
`k` — the contents of `index[k]` after the index build over `coll`. -/
def keyGroup (coll : List Record) (keyField : String) (k : String) : List Record :=
  coll.filter (fun r => Record.keyStr r keyField == k)

/-- Number of records in `coll` whose stringified key equals `k`. -/
def matchCount (coll : List Record) (keyField : String) (k : String) : Nat :=
  (keyGroup coll keyField k).length

/-- The (left, right) pairs the symmetric combinator hands to its
callback and emits: `outerJoin` instantiated with a callback that
records the pair itself instead of merging it. -/
def outerJoinPairs (left right : List Record) (leftKey rightKey : String) :
    List (Option Record × Option Record) :=
  leftRightIterate left right leftKey rightKey (fun l r => some (l, r))

/-- Number of occurrences of `x` in a list. -/
def countOcc {α : Type} [DecidableEq α] (x : α) : List α → Nat
  | [] => 0
  | a :: tl => (if a = x then 1 else 0) + countOcc x tl

/-! ### Characterization of the index and the iterators -/

theorem buildIndex_go (right : List Record) (rightKey : String) :
    ∀ (acc : String → List Record) (k : String),
      (right.foldl
        (fun index row => fun k' =>
          if k' = Record.keyStr row rightKey then index k' ++ [row] else index k')
        acc) k
      = acc k ++ right.filter (fun r => Record.keyStr r rightKey == k) := by
  induction right with
  | nil => intro acc k; simp
  | cons a tl ih =>
    intro acc k
    rw [List.foldl_cons, ih, List.filter_cons]
    by_cases h : Record.keyStr a rightKey = k
    · simp [h]
    · have h' : k ≠ Record.keyStr a rightKey := fun hk => h hk.symm
      simp [h, h']

/-- The built index realizes, at each key string, the ordered group of
right-hand records sharing that key. -/
theorem buildIndex_apply (right : List Record) (rightKey : String) (k : String) :
    buildIndex right rightKey k = keyGroup right rightKey k := by
  rw [buildIndex, buildIndex_go, keyGroup]
  rfl

theorem leftIterate_eq {α : Type} (left right : List Record) (leftKey rightKey : String)
    (select : Option Record → Option Record → Option α) :
    leftIterate left right leftKey rightKey select
      = left.flatMap (fun row =>
          (entriesOf (keyGroup right rightKey (Record.keyStr row leftKey))).filterMap
            (fun entry => select (some row) entry)) := by
  simp only [leftIterate, buildIndex_apply]

theorem entriesOf_filterMap {α : Type} (ms : List Record) (g : Option Record → Option α) :
    (entriesOf ms).filterMap g
      = if ms.isEmpty then (g none).toList
        else ms.filterMap (fun r => g (some r)) := by
  cases ms with
  | nil => cases h : g none <;> simp [entriesOf, List.filterMap_cons, h]
  | cons a tl =>
    simp only [entriesOf, List.filterMap_map, List.isEmpty_cons, if_neg Bool.false_ne_true]
    rfl

theorem leftIterate_congr {α : Type} {left right : List Record} {leftKey rightKey : String}
    {s₁ s₂ : Option Record → Option Record → Option α}
    (h : ∀ row e, s₁ (some row) e = s₂ (some row) e) :
    leftIterate left right leftKey rightKey s₁ = leftIterate left right leftKey rightKey s₂ := by
  simp only [leftIterate]
  congr 1
  funext row
  congr 1
  funext e
  exact h row e

theorem leftIterate_map {α β : Type} {left right : List Record} {leftKey rightKey : String}
    {s₁ : Option Record → Option Record → Option β}
    {s₂ : Option Record → Option Record → Option α} {g : α → β}
    (h : ∀ row e, s₁ (some row) e = (s₂ (some row) e).map g) :
    leftIterate left right leftKey rightKey s₁
      = (leftIterate left right leftKey rightKey s₂).map g := by
  simp only [leftIterate, List.map_flatMap]
  congr 1
  funext row
  rw [List.map_filterMap]
  congr 1
  funext e
  exact h row e

/-! ### Small list facts used below -/

theorem filterMap_over_flatMap {α β γ : Type} (l : List α) (f : α → List β) (g : β → Option γ) :
    (l.flatMap f).filterMap g = l.flatMap (fun a => (f a).filterMap g) := by
  induction l with
  | nil => rfl
  | cons a tl ih => simp [List.flatMap_cons, List.filterMap_append, ih]

theorem flatMap_over_filter {α β : Type} (l : List α) (q : α → Bool) (f : α → List β) :
    (l.filter q).flatMap f = l.flatMap (fun a => if q a then f a else []) := by
  induction l with
  | nil => rfl
  | cons a tl ih =>
    rw [List.filter_cons, List.flatMap_cons]
    by_cases h : q a
    · simp [h, List.flatMap_cons, ih]
    · simp [h, ih]

theorem length_le_sum_map_max_one {α : Type} (l : List α) (f : α → Nat) :
    l.length ≤ (l.map (fun a => max (f a) 1)).sum := by
  induction l with
  | nil => simp
  | cons a tl ih =>
    simp only [List.map_cons, List.sum_cons, List.length_cons]
    have h1 : 1 ≤ max (f a) 1 := le_max_right _ _
    omega

theorem countOcc_append {α : Type} [DecidableEq α] (x : α) (l₁ l₂ : List α) :
    countOcc x (l₁ ++ l₂) = countOcc x l₁ + countOcc x l₂ := by
  induction l₁ with
  | nil => simp [countOcc]
  | cons a tl ih => simp [countOcc, ih]; omega

theorem countOcc_eq_zero {α : Type} [DecidableEq α] {x : α} {l : List α}
    (h : x ∉ l) : countOcc x l = 0 := by
  induction l with
  | nil => rfl
  | cons a tl ih =>
    have ha : a ≠ x := fun hax => h (hax ▸ List.mem_cons_self a tl)
    have htl : x ∉ tl := fun hm => h (List.mem_cons_of_mem a hm)
    simp [countOcc, ha, ih htl]

theorem countOcc_map_inj {α β : Type} [DecidableEq α] [DecidableEq β]
    (f : α → β) (hf : Function.Injective f) (x : α) (l : List α) :
    countOcc (f x) (l.map f) = countOcc x l := by
  induction l with
  | nil => rfl
  | cons a tl ih =>
    simp only [List.map_cons, countOcc, ih]
    by_cases h : a = x
    · simp [h]
    · have : f a ≠ f x := fun he => h (hf he)
      simp [h, this]

theorem countOcc_filter_of_pos {α : Type} [DecidableEq α] {p : α → Bool} {x : α}
    (hx : p x = true) (l : List α) :
    countOcc x (l.filter p) = countOcc x l := by
  induction l with
  | nil => rfl
  | cons a tl ih =>
    rw [List.filter_cons]
    by_cases h : p a
    · simp [h, countOcc, ih]
    · have hax : a ≠ x := fun he => h (he ▸ hx)
      simp [h, countOcc, hax, ih]

theorem sum_map_ite_countOcc {α : Type} [DecidableEq α] (l : List α) (x : α) (n : Nat) :
    (l.map (fun a => if a = x then n else 0)).sum = countOcc x l * n := by
  induction l with
  | nil => simp [countOcc]
  | cons a tl ih =>
    simp only [List.map_cons, List.sum_cons, countOcc, ih]
    by_cases h : a = x
    · simp [h, Nat.add_mul]
    · simp [h]

theorem countOcc_flatMap {α β : Type} [DecidableEq β] (x : β) (l : List α) (f : α → List β) :
    countOcc x (l.flatMap f) = (l.map (fun a => countOcc x (f a))).sum := by
  induction l with
  | nil => rfl
  | cons a tl ih => simp [List.flatMap_cons, countOcc_append, ih]

theorem filterMap_some_fn {α β : Type} (f : α → β) (l : List α) :
    l.filterMap (fun a => some (f a)) = l.map f :=
  congrFun (List.filterMap_eq_map f) l

theorem sum_map_congr {α : Type} (l : List α) {f g : α → Nat} (h : ∀ a, f a = g a) :
    (l.map f).sum = (l.map g).sum := by
  have hfg : f = g := funext h
  rw [hfg]

/-! ### Per-row characterizations of the join operations -/

theorem innerJoin_eq (L R : List Record) (lk rk : String) (m : Option MergeFn) :
    innerJoin L R lk rk m
      = L.flatMap (fun row =>
          (keyGroup R rk (Record.keyStr row lk)).map
            (fun rv => (m.getD defaultMerge) row rv)) := by
  rw [innerJoin, leftIterate_eq]
  congr 1
  funext row
  rw [entriesOf_filterMap]
  cases h : keyGroup R rk (Record.keyStr row lk) with
  | nil => simp
  | cons a tl => simp [filterMap_some_fn]

theorem leftJoin_eq (L R : List Record) (lk rk : String) (m : Option MergeFn) :
    leftJoin L R lk rk m
      = L.flatMap (fun row =>
          if (keyGroup R rk (Record.keyStr row lk)).isEmpty
          then [(m.getD defaultMerge) row []]
          else (keyGroup R rk (Record.keyStr row lk)).map
            (fun rv => (m.getD defaultMerge) row rv)) := by
  rw [leftJoin, leftIterate_eq]
  congr 1
  funext row
  rw [entriesOf_filterMap]
  cases h : keyGroup R rk (Record.keyStr row lk) with
  | nil => simp
  | cons a tl => simp [filterMap_some_fn]

theorem leftExcludingJoin_eq (L R : List Record) (lk rk : String) (m : Option MergeFn) :
    leftExcludingJoin L R lk rk m
      = L.flatMap (fun row =>
          if (keyGroup R rk (Record.keyStr row lk)).isEmpty
          then [(m.getD defaultMerge) row []] else []) := by
  rw [leftExcludingJoin, leftIterate_eq]
  congr 1
  funext row
  rw [entriesOf_filterMap]
  cases h : keyGroup R rk (Record.keyStr row lk) with
  | nil => simp
  | cons a tl => simp

theorem rightExcludingJoin_eq (L R : List Record) (lk rk : String) (m : Option MergeFn) :
    rightExcludingJoin L R lk rk m
      = R.flatMap (fun row =>
          if (keyGroup L lk (Record.keyStr row rk)).isEmpty
          then [(m.getD defaultMerge) [] row] else []) := by
  rw [rightExcludingJoin, leftIterate_eq]
  congr 1
  funext row
  rw [entriesOf_filterMap]
  cases h : keyGroup L lk (Record.keyStr row rk) with
  | nil => simp
  | cons a tl => simp

theorem outerJoinPairs_eq (L R : List Record) (lk rk : String) :
    outerJoinPairs L R lk rk
      = L.flatMap (fun row =>
          if (keyGroup R rk (Record.keyStr row lk)).isEmpty
          then [((some row : Option Record), (none : Option Record))]
          else (keyGroup R rk (Record.keyStr row lk)).map
            (fun rv => (some row, some rv)))
        ++ R.flatMap (fun row =>
          if (keyGroup L lk (Record.keyStr row rk)).isEmpty
          then [((none : Option Record), (some row : Option Record))] else []) := by
  rw [outerJoinPairs, leftRightIterate]
  congr 1
  · rw [leftIterate_eq]
    congr 1
    funext row
    rw [entriesOf_filterMap]
    cases h : keyGroup R rk (Record.keyStr row lk) with
    | nil => simp
    | cons a tl => simp [filterMap_some_fn]
  · rw [leftIterate_eq]
    congr 1
    funext row
    rw [entriesOf_filterMap]
    cases h : keyGroup L lk (Record.keyStr row rk) with
    | nil => simp
    | cons a tl => simp

/-! ### Claims -/

/-- Claim C2: with the default merge, the length of `innerJoin(L,R,leftKey,rightKey)`
equals the sum over the records of `L` of the number of records in `R` whose
key matches that record's key; a left record with zero matches contributes
no output row. -/
theorem C2_inner_join_cardinality (L R : List Record) (lk rk : String) :
    (innerJoin L R lk rk none).length
      = (L.map (fun l => matchCount R rk (Record.keyStr l lk))).sum := by
  rw [innerJoin_eq, List.length_flatMap]
  exact sum_map_congr L (fun row => by simp [Function.comp, matchCount])

/-- Claim C3: with the default merge, `leftJoin` emits, for each left record in
order, one row per matching right record, or a single row with the empty
record on the right when there is no match; hence its length is the sum of
`max(matchCount, 1)` over left records, and in particular at least `len(L)`. -/
theorem C3_left_join_totality (L R : List Record) (lk rk : String) :
    leftJoin L R lk rk none
      = L.flatMap (fun l =>
          if (keyGroup R rk (Record.keyStr l lk)).isEmpty
          then [defaultMerge l []]
          else (keyGroup R rk (Record.keyStr l lk)).map (fun r => defaultMerge l r))
    ∧ (leftJoin L R lk rk none).length
        = (L.map (fun l => max (matchCount R rk (Record.keyStr l lk)) 1)).sum
    ∧ L.length ≤ (leftJoin L R lk rk none).length := by
  have h1 := leftJoin_eq L R lk rk none
  have h2 : (leftJoin L R lk rk none).length
      = (L.map (fun l => max (matchCount R rk (Record.keyStr l lk)) 1)).sum := by
    rw [h1, List.length_flatMap]
    refine sum_map_congr L (fun row => ?_)
    by_cases h : (keyGroup R rk (Record.keyStr row lk)).isEmpty
    · simp [Function.comp, h, matchCount, List.isEmpty_iff.mp h]
    · have hlen : 1 ≤ (keyGroup R rk (Record.keyStr row lk)).length := by
        cases hg : keyGroup R rk (Record.keyStr row lk) with
        | nil => exact absurd (by simp [hg]) h
        | cons a tl => simp
      simp [Function.comp, h, matchCount, Nat.max_eq_left hlen, hlen]
  refine ⟨h1, h2, ?_⟩
  rw [h2]
  exact length_le_sum_map_max_one L _

/-- Claim C4: a left record with N matching right records produces exactly N
output rows, one per match, in right-collection insertion order, never
deduplicated; concretely, `innerJoin([{id:1}], [{id:1,x:'a'},{id:1,x:'b'}],
'id', 'id')` with the default merge produces exactly the two merged rows,
with `x:'a'` first and `x:'b'` second. -/
theorem C4_duplicate_key_fan_out (L R : List Record) (lk rk : String) :
    innerJoin L R lk rk none
      = L.flatMap (fun l =>
          (keyGroup R rk (Record.keyStr l lk)).map (fun r => defaultMerge l r))
    ∧ innerJoin [[("id", Value.vNum 1)]]
        [[("id", Value.vNum 1), ("x", Value.vStr "a")],
         [("id", Value.vNum 1), ("x", Value.vStr "b")]]
        "id" "id" none
      = [[("id", Value.vNum 1), ("x", Value.vStr "a")],
         [("id", Value.vNum 1), ("x", Value.vStr "b")]] :=
  ⟨innerJoin_eq L R lk rk none, by decide⟩

/-- Claim C5: for identical inputs and merge function, `leftExcludingJoin` equals
the part of `leftJoin`'s output produced for the left records with no
right-side match (the rows whose right-side contribution is the empty
record). -/
theorem C5_excluding_complement (L R : List Record) (lk rk : String) (m : Option MergeFn) :
    leftExcludingJoin L R lk rk m
      = leftJoin (L.filter (fun l => (keyGroup R rk (Record.keyStr l lk)).isEmpty))
          R lk rk m := by
  rw [leftExcludingJoin_eq, leftJoin_eq, flatMap_over_filter]
  congr 1
  funext row
  by_cases h : (keyGroup R rk (Record.keyStr row lk)).isEmpty
  · simp [h]
  · simp [h]

/-- Claim C6: the iterator's result is exactly the sequence of truthy `select`
results in invocation order: a falsy (`none`) result simply omits that
pair, and this truthiness test is the sole inclusion-filtering mechanism
the iterator applies. -/
theorem C6_falsy_select_omission {α : Type} (L R : List Record) (lk rk : String)
    (select : Option Record → Option Record → Option α) :
    leftIterate L R lk rk select
      = (leftIterate L R lk rk (fun l r => some (l, r))).filterMap
          (fun p => select p.1 p.2) := by
  rw [leftIterate_eq, leftIterate_eq, filterMap_over_flatMap]
  congr 1
  funext row
  rw [filterMap_some_fn, List.filterMap_map]
  rfl

/-- Claim C7: key matching is by stringified key value: a left record whose key
is the number 1 and a right record whose key is the string "1" produce the
same index key, and `innerJoin` pairs the two records. -/
theorem C7_loose_key_equality :
    Record.keyStr [("k", Value.vNum 1)] "k"
        = Record.keyStr [("k", Value.vStr "1"), ("x", Value.vNum 7)] "k"
    ∧ innerJoin [[("k", Value.vNum 1)]]
        [[("k", Value.vStr "1"), ("x", Value.vNum 7)]] "k" "k" none
      = [[("k", Value.vStr "1"), ("x", Value.vNum 7)]] := by
  exact ⟨by decide, by decide⟩

/-- Claim C9: `outerJoin` is the concatenation of `leftJoin` and
`rightExcludingJoin` for the same inputs and merge function: the symmetric
combinator's left-driven pass emits exactly the rows `leftJoin` would and
its right-driven pass exactly the rows `rightExcludingJoin` would, in the
same order. -/
theorem C9_outer_join_decomposition (L R : List Record) (lk rk : String)
    (m : Option MergeFn) :
    outerJoin L R lk rk m = leftJoin L R lk rk m ++ rightExcludingJoin L R lk rk m := by
  rw [outerJoin, leftRightIterate, leftJoin, rightExcludingJoin]
  congr 1
  all_goals exact leftIterate_congr (fun row e => by cases e <;> rfl)

/-! ### Property assignment and `defaultMerge` lookup lemmas -/

theorem lookup_map_overwrite (f : String) (v : Value) :
    ∀ r : Record,
      (r.map (fun p => if p.1 = f then (f, v) else p)).lookup f
        = (r.lookup f).map (fun _ => v) := by
  intro r
  induction r with
  | nil => rfl
  | cons a tl ih =>
    obtain ⟨k, w⟩ := a
    by_cases h : k = f
    · subst h
      simp [List.lookup_cons]
    · have hbeq : (f == k) = false := by simp [Ne.symm h]
      simp [List.lookup_cons, h, hbeq, ih]

theorem lookup_append_single (f : String) (v : Value) :
    ∀ r : Record, r.lookup f = none → (r ++ [(f, v)]).lookup f = some v := by
  intro r
  induction r with
  | nil => intro _; simp [List.lookup_cons]
  | cons a tl ih =>
    obtain ⟨k, w⟩ := a
    intro h
    rw [List.cons_append]
    simp only [List.lookup_cons] at h ⊢
    cases hkf : (f == k)
    · simp only [hkf] at h ⊢
      exact ih h
    · simp [hkf] at h

theorem lookup_map_overwrite_ne (f g : String) (v : Value) (hgf : g ≠ f) :
    ∀ r : Record,
      (r.map (fun p => if p.1 = f then (f, v) else p)).lookup g = r.lookup g := by
  intro r
  induction r with
  | nil => rfl
  | cons a tl ih =>
    obtain ⟨k, w⟩ := a
    by_cases h : k = f
    · subst h
      have hgk : (g == k) = false := by simp [hgf]
      simp [List.lookup_cons, hgk, ih]
    · simp only [List.map_cons, if_neg h, List.lookup_cons]
      cases hgk : (g == k) <;> simp [ih]

theorem lookup_append_single_ne (f g : String) (v : Value) (hgf : g ≠ f) :
    ∀ r : Record, (r ++ [(f, v)]).lookup g = r.lookup g := by
  intro r
  induction r with
  | nil =>
    have hgk : (g == f) = false := by simp [hgf]
    simp [List.lookup_cons, hgk]
  | cons a tl ih =>
    obtain ⟨k, w⟩ := a
    rw [List.cons_append]
    simp only [List.lookup_cons]
    cases hgk : (g == k) <;> simp [ih]

theorem set_lookup_self (r : Record) (f : String) (v : Value) :
    (Record.set r f v).lookup f = some v := by
  rw [Record.set]
  by_cases hs : (r.lookup f).isSome
  · rw [if_pos hs, lookup_map_overwrite]
    obtain ⟨w, hw⟩ := Option.isSome_iff_exists.mp hs
    rw [hw]
    rfl
  · rw [if_neg hs]
    exact lookup_append_single f v r (Option.not_isSome_iff_eq_none.mp hs)

theorem set_lookup_ne (r : Record) (f g : String) (v : Value) (hgf : g ≠ f) :
    (Record.set r f v).lookup g = r.lookup g := by
  rw [Record.set]
  by_cases hs : (r.lookup f).isSome
  · rw [if_pos hs]
    exact lookup_map_overwrite_ne f g v hgf r
  · rw [if_neg hs]
    exact lookup_append_single_ne f g v hgf r

theorem lookup_eq_none_of_not_mem_keys {f : String} :
    ∀ {r : Record}, f ∉ r.map Prod.fst → r.lookup f = none := by
  intro r
  induction r with
  | nil => intro _; rfl
  | cons a tl ih =>
    obtain ⟨k, w⟩ := a
    intro h
    simp only [List.map_cons, List.mem_cons, not_or] at h
    obtain ⟨hfk, hftl⟩ := h
    have hbeq : (f == k) = false := by simp [hfk]
    simp [List.lookup_cons, hbeq, ih hftl]

theorem foldl_set_lookup :
    ∀ (src : Record) (dst : Record) (f : String), (src.map Prod.fst).Nodup →
      (src.foldl (fun rec p => Record.set rec p.1 p.2) dst).lookup f
        = match src.lookup f with
          | some v => some v
          | none => dst.lookup f := by
  intro src
  induction src with
  | nil => intro dst f _; rfl
  | cons a tl ih =>
    intro dst f hnd
    obtain ⟨k, w⟩ := a
    simp only [List.map_cons, List.nodup_cons] at hnd
    obtain ⟨hk, hnd'⟩ := hnd
    rw [List.foldl_cons, ih _ f hnd']
    by_cases h : f = k
    · subst h
      have htl : tl.lookup f = none := lookup_eq_none_of_not_mem_keys hk
      simp [htl, List.lookup_cons, set_lookup_self]
    · have hbeq : (f == k) = false := by simp [h]
      cases htl : tl.lookup f with
      | some v => simp [List.lookup_cons, hbeq, htl]
      | none => simp [List.lookup_cons, hbeq, htl, set_lookup_ne dst k f w h]

/-- Claim C8: `defaultMerge(left, right)` yields a record whose value at every
field name is the right-hand record's value when the right side carries
the field and the left-hand record's value otherwise; concretely,
`defaultMerge({a:1,b:2},{b:3,c:4})` equals `{a:1,b:3,c:4}`. -/
theorem C8_default_merge_precedence (l r : Record) (f : String)
    (hl : (l.map Prod.fst).Nodup) (hr : (r.map Prod.fst).Nodup) :
    (Record.get (defaultMerge l r) f
        = match Record.get r f with
          | some v => some v
          | none => Record.get l f)
    ∧ defaultMerge [("a", Value.vNum 1), ("b", Value.vNum 2)]
        [("b", Value.vNum 3), ("c", Value.vNum 4)]
      = [("a", Value.vNum 1), ("b", Value.vNum 3), ("c", Value.vNum 4)] := by
  constructor
  · simp only [defaultMerge, Record.get]
    rw [foldl_set_lookup r _ f hr, foldl_set_lookup l _ f hl]
    cases hrf : r.lookup f with
    | some v => simp [hrf]
    | none => cases hlf : l.lookup f <;> simp [hrf, hlf]
  · decide

/-- Closed instance of `C8_default_merge_precedence` at concrete records
with duplicate-free field names. -/
theorem C8_default_merge_precedence_witness :
    ((([("a", Value.vNum 1), ("b", Value.vNum 2)] : Record).map Prod.fst).Nodup
      ∧ (([("b", Value.vNum 3), ("c", Value.vNum 4)] : Record).map Prod.fst).Nodup)
    ∧ Record.get (defaultMerge [("a", Value.vNum 1), ("b", Value.vNum 2)]
          [("b", Value.vNum 3), ("c", Value.vNum 4)]) "b"
        = match Record.get [("b", Value.vNum 3), ("c", Value.vNum 4)] "b" with
          | some v => some v
          | none => Record.get [("a", Value.vNum 1), ("b", Value.vNum 2)] "b" :=
  ⟨⟨by decide, by decide⟩,
    (C8_default_merge_precedence [("a", Value.vNum 1), ("b", Value.vNum 2)]
      [("b", Value.vNum 3), ("c", Value.vNum 4)] "b" (by decide) (by decide)).1⟩

/-- Claim C10: a left record lacking the left key field is not dropped: its
lookup key is the stringified undefined value, the same key under which
right records lacking the right key field are grouped, so `innerJoin`
pairs every key-less left record with every key-less right record. -/
theorem C10_keyless_records_match (L R : List Record) (lk rk : String)
    (l r : Record) (hlm : l ∈ L) (hrm : r ∈ R)
    (hl : Record.get l lk = none) (hr : Record.get r rk = none) :
    Record.keyStr l lk = Record.keyStr r rk
    ∧ defaultMerge l r ∈ innerJoin L R lk rk none := by
  have hkl : Record.keyStr l lk = "undefined" := by rw [Record.keyStr, hl]
  have hkr : Record.keyStr r rk = "undefined" := by rw [Record.keyStr, hr]
  refine ⟨by rw [hkl, hkr], ?_⟩
  rw [innerJoin_eq]
  refine List.mem_flatMap.mpr ⟨l, hlm, ?_⟩
  refine List.mem_map_of_mem _ ?_
  rw [keyGroup, List.mem_filter]
  refine ⟨hrm, ?_⟩
  rw [hkr, hkl]
  simp

/-- Closed instance of `C10_keyless_records_match`: both sides consist of
one record lacking the key field `k`, and the two records get paired. -/
theorem C10_keyless_records_match_witness :
    (([("a", Value.vNum 1)] : Record) ∈ ([[("a", Value.vNum 1)]] : List Record)
      ∧ ([("b", Value.vNum 2)] : Record) ∈ ([[("b", Value.vNum 2)]] : List Record)
      ∧ Record.get [("a", Value.vNum 1)] "k" = none
      ∧ Record.get [("b", Value.vNum 2)] "k" = none)
    ∧ (Record.keyStr [("a", Value.vNum 1)] "k" = Record.keyStr [("b", Value.vNum 2)] "k"
      ∧ defaultMerge [("a", Value.vNum 1)] [("b", Value.vNum 2)]
          ∈ innerJoin [[("a", Value.vNum 1)]] [[("b", Value.vNum 2)]] "k" "k" none) :=
  ⟨⟨by decide, by decide, by decide, by decide⟩,
    C10_keyless_records_match [[("a", Value.vNum 1)]] [[("b", Value.vNum 2)]] "k" "k"
      [("a", Value.vNum 1)] [("b", Value.vNum 2)]
      (by decide) (by decide) (by decide) (by decide)⟩

/-! ### Outer-join completeness -/

theorem append_congr {α : Type} {a b c d : List α} (h₁ : a = c) (h₂ : b = d) :
    a ++ b = c ++ d := by
  rw [h₁, h₂]

theorem keyGroup_nonempty_mem {coll : List Record} {keyField : String} {k : String}
    (h : ¬(keyGroup coll keyField k).isEmpty = true) :
    ∃ x, x ∈ keyGroup coll keyField k := by
  cases hg : keyGroup coll keyField k with
  | nil => exact absurd (by simp [hg]) h
  | cons a tl => exact ⟨a, List.mem_cons_self a tl⟩

theorem mem_keyGroup_self {coll : List Record} {keyField : String} {r : Record}
    (h : r ∈ coll) : r ∈ keyGroup coll keyField (Record.keyStr r keyField) :=
  List.mem_filter.mpr ⟨h, by simp⟩

/-- Claim C1: with the merge contract of the source (a merge callback returns a
record, which is truthy), every `outerJoin` output row is the merge of one
emitted pair; every left record heads at least one emitted pair, every
right record occurs on the right of at least one emitted pair, and a
key-matched (left, right) pair is emitted exactly once per occurrence of
the two records — in particular it is not re-emitted by the right-driven
pass. -/
theorem C1_outer_join_completeness (L R : List Record) (lk rk : String)
    (m : Option MergeFn) :
    (outerJoin L R lk rk m
        = (outerJoinPairs L R lk rk).map
            (fun p => (m.getD defaultMerge) (p.1.getD []) (p.2.getD [])))
    ∧ (∀ l ∈ L, ∃ p ∈ outerJoinPairs L R lk rk, p.1 = some l)
    ∧ (∀ r ∈ R, ∃ p ∈ outerJoinPairs L R lk rk, p.2 = some r)
    ∧ (∀ l r : Record, Record.keyStr l lk = Record.keyStr r rk →
        countOcc ((some l, some r) : Option Record × Option Record)
            (outerJoinPairs L R lk rk)
          = countOcc l L * countOcc r R) := by
  refine ⟨?_, ?_, ?_, ?_⟩
  · -- every emitted pair becomes exactly one output row
    simp only [outerJoin, outerJoinPairs, leftRightIterate, List.map_append]
    exact append_congr
      (leftIterate_map (fun row e => by cases e <;> rfl))
      (leftIterate_map (fun row e => by cases e <;> rfl))
  · -- every left record heads at least one emitted pair
    intro l hl
    rw [outerJoinPairs_eq]
    by_cases h : (keyGroup R rk (Record.keyStr l lk)).isEmpty
    · refine ⟨(some l, none), List.mem_append_left _ ?_, rfl⟩
      refine List.mem_flatMap.mpr ⟨l, hl, ?_⟩
      rw [if_pos h]
      exact List.mem_singleton_self _
    · obtain ⟨r0, hr0⟩ := keyGroup_nonempty_mem h
      refine ⟨(some l, some r0), List.mem_append_left _ ?_, rfl⟩
      refine List.mem_flatMap.mpr ⟨l, hl, ?_⟩
      rw [if_neg h]
      exact List.mem_map_of_mem _ hr0
  · -- every right record appears on the right of at least one emitted pair
    intro r hr
    rw [outerJoinPairs_eq]
    by_cases h : (keyGroup L lk (Record.keyStr r rk)).isEmpty
    · refine ⟨(none, some r), List.mem_append_right _ ?_, rfl⟩
      refine List.mem_flatMap.mpr ⟨r, hr, ?_⟩
      rw [if_pos h]
      exact List.mem_singleton_self _
    · obtain ⟨l0, hl0⟩ := keyGroup_nonempty_mem h
      have hl0L : l0 ∈ L := (List.mem_filter.mp hl0).1
      have hkey : Record.keyStr l0 lk = Record.keyStr r rk :=
        beq_iff_eq.mp (List.mem_filter.mp hl0).2
      refine ⟨(some l0, some r), List.mem_append_left _ ?_, rfl⟩
      refine List.mem_flatMap.mpr ⟨l0, hl0L, ?_⟩
      have hrg : r ∈ keyGroup R rk (Record.keyStr l0 lk) := by
        rw [hkey]
        exact mem_keyGroup_self hr
      have hne : ¬(keyGroup R rk (Record.keyStr l0 lk)).isEmpty = true := by
        intro hemp
        rw [List.isEmpty_iff.mp hemp] at hrg
        exact absurd hrg (List.not_mem_nil r)
      rw [if_neg hne]
      exact List.mem_map_of_mem _ hrg
  · -- a key-matched pair is emitted once per occurrence of the records
    intro l r hkey
    rw [outerJoinPairs_eq, countOcc_append, countOcc_flatMap, countOcc_flatMap]
    show (L.map fun row => countOcc ((some l, some r) : Option Record × Option Record)
        (if (keyGroup R rk (Record.keyStr row lk)).isEmpty
         then [((some row : Option Record), (none : Option Record))]
         else (keyGroup R rk (Record.keyStr row lk)).map
           (fun rv => (some row, some rv)))).sum
      + (R.map fun row => countOcc ((some l, some r) : Option Record × Option Record)
        (if (keyGroup L lk (Record.keyStr row rk)).isEmpty
         then [((none : Option Record), (some row : Option Record))] else [])).sum
      = countOcc l L * countOcc r R
    have h2 : (R.map fun row => countOcc ((some l, some r) : Option Record × Option Record)
        (if (keyGroup L lk (Record.keyStr row rk)).isEmpty
         then [((none : Option Record), (some row : Option Record))] else [])).sum = 0 := by
      apply List.sum_eq_zero
      intro x hx
      obtain ⟨row, _, rfl⟩ := List.mem_map.mp hx
      by_cases h : (keyGroup L lk (Record.keyStr row rk)).isEmpty
      · simp [h, countOcc]
      · simp [h, countOcc]
    have hpoint : ∀ row : Record,
        countOcc ((some l, some r) : Option Record × Option Record)
          (if (keyGroup R rk (Record.keyStr row lk)).isEmpty
           then [((some row : Option Record), (none : Option Record))]
           else (keyGroup R rk (Record.keyStr row lk)).map
             (fun rv => (some row, some rv)))
        = if row = l then countOcc r R else 0 := by
      intro row
      by_cases hrow : row = l
      · subst hrow
        rw [if_pos rfl]
        by_cases h : (keyGroup R rk (Record.keyStr row lk)).isEmpty
        · have hr0 : countOcc r R = 0 := by
            apply countOcc_eq_zero
            intro hrR
            have hrg : r ∈ keyGroup R rk (Record.keyStr row lk) := by
              rw [hkey]
              exact mem_keyGroup_self hrR
            rw [List.isEmpty_iff.mp h] at hrg
            exact absurd hrg (List.not_mem_nil r)
          rw [if_pos h, hr0]
          simp [countOcc]
        · rw [if_neg h]
          have hinj : Function.Injective
              (fun rv : Record => ((some row : Option Record), (some rv : Option Record))) := by
            intro a b hab
            simpa using hab
          have hcm := countOcc_map_inj
            (fun rv : Record => ((some row : Option Record), (some rv : Option Record)))
            hinj r (keyGroup R rk (Record.keyStr row lk))
          have hcf : countOcc r (keyGroup R rk (Record.keyStr row lk)) = countOcc r R := by
            rw [keyGroup]
            apply countOcc_filter_of_pos
            rw [hkey]
            simp
          exact hcm.trans hcf
      · rw [if_neg hrow]
        apply countOcc_eq_zero
        intro hmem
        by_cases h : (keyGroup R rk (Record.keyStr row lk)).isEmpty
        · rw [if_pos h] at hmem
          simp at hmem
        · rw [if_neg h] at hmem
          obtain ⟨rv, _, heq⟩ := List.mem_map.mp hmem
          simp only [Prod.mk.injEq, Option.some.injEq] at heq
          exact hrow heq.1
    rw [h2, Nat.add_zero, sum_map_congr L hpoint, sum_map_ite_countOcc]

/-- Closed instance of `C1_outer_join_completeness` at one-record
collections with matching keys. -/
theorem C1_outer_join_completeness_witness :
    (([("k", Value.vNum 1)] : Record) ∈ ([[("k", Value.vNum 1)]] : List Record)
      ∧ ∃ p ∈ outerJoinPairs [[("k", Value.vNum 1)]]
          [[("k", Value.vNum 1), ("x", Value.vStr "a")]] "k" "k",
          p.1 = some [("k", Value.vNum 1)])
    ∧ (([("k", Value.vNum 1), ("x", Value.vStr "a")] : Record)
          ∈ ([[("k", Value.vNum 1), ("x", Value.vStr "a")]] : List Record)
      ∧ ∃ p ∈ outerJoinPairs [[("k", Value.vNum 1)]]
          [[("k", Value.vNum 1), ("x", Value.vStr "a")]] "k" "k",
          p.2 = some [("k", Value.vNum 1), ("x", Value.vStr "a")])
    ∧ (Record.keyStr [("k", Value.vNum 1)] "k"
          = Record.keyStr [("k", Value.vNum 1), ("x", Value.vStr "a")] "k"
      ∧ countOcc ((some [("k", Value.vNum 1)],
            some [("k", Value.vNum 1), ("x", Value.vStr "a")]) :
            Option Record × Option Record)
          (outerJoinPairs [[("k", Value.vNum 1)]]
            [[("k", Value.vNum 1), ("x", Value.vStr "a")]] "k" "k")
        = countOcc ([("k", Value.vNum 1)] : Record) [[("k", Value.vNum 1)]]
            * countOcc ([("k", Value.vNum 1), ("x", Value.vStr "a")] : Record)
                [[("k", Value.vNum 1), ("x", Value.vStr "a")]]) :=
  ⟨⟨by decide,
      (C1_outer_join_completeness [[("k", Value.vNum 1)]]
        [[("k", Value.vNum 1), ("x", Value.vStr "a")]] "k" "k" none).2.1
        [("k", Value.vNum 1)] (by decide)⟩,
    ⟨by decide,
      (C1_outer_join_completeness [[("k", Value.vNum 1)]]
        [[("k", Value.vNum 1), ("x", Value.vStr "a")]] "k" "k" none).2.2.1
        [("k", Value.vNum 1), ("x", Value.vStr "a")] (by decide)⟩,
    ⟨by decide,
      (C1_outer_join_completeness [[("k", Value.vNum 1)]]
        [[("k", Value.vNum 1), ("x", Value.vStr "a")]] "k" "k" none).2.2.2
        [("k", Value.vNum 1)] [("k", Value.vNum 1), ("x", Value.vStr "a")]
        (by decide)⟩⟩
